import Mathlib

/-!
Shallow embedding of the pyQCD post-processing code
(`postprocess/statistics.py` and `pyQCD/postprocessing/measurements.py`).

Python floats and complex numbers are modelled by exact rationals `ℚ` and by
the computable Gaussian-rational type `Cx` below; numpy arrays are modelled by
lists (or by total functions on `ℕ` together with an explicit length, for the
flat site axis of a propagator).  External collaborators that are not part of
this repository (the `scipy.optimize.leastsq` solver, the transcendental
functions `exp`, `sqrt` and `e^{iθ}` from `pylab`, the `io.load_propagator`
loader and the `constants` module providing `gamma5` and the 16 interpolating
`Gammas`) are taken as explicit parameters; nothing proved here depends on
their values.
-/

/-! ## Computable complex numbers over `ℚ` (model of numpy complex values) -/

/-- A complex number with rational real and imaginary parts. -/
@[ext] structure Cx where
  re : ℚ
  im : ℚ
deriving DecidableEq

instance : Zero Cx := ⟨⟨0, 0⟩⟩

instance : One Cx := ⟨⟨1, 0⟩⟩

instance : Add Cx := ⟨fun z w => ⟨z.re + w.re, z.im + w.im⟩⟩

instance : Neg Cx := ⟨fun z => ⟨-z.re, -z.im⟩⟩

instance : Mul Cx := ⟨fun z w => ⟨z.re * w.re - z.im * w.im, z.re * w.im + z.im * w.re⟩⟩

/-- Complex conjugation, the model of `pl.conj`. -/
def Cx.conj (z : Cx) : Cx := ⟨z.re, -z.im⟩

@[simp] theorem Cx.add_re (z w : Cx) : (z + w).re = z.re + w.re := rfl

@[simp] theorem Cx.add_im (z w : Cx) : (z + w).im = z.im + w.im := rfl

@[simp] theorem Cx.mul_re (z w : Cx) : (z * w).re = z.re * w.re - z.im * w.im := rfl

@[simp] theorem Cx.mul_im (z w : Cx) : (z * w).im = z.re * w.im + z.im * w.re := rfl

@[simp] theorem Cx.neg_re (z : Cx) : (-z).re = -z.re := rfl

@[simp] theorem Cx.neg_im (z : Cx) : (-z).im = -z.im := rfl

@[simp] theorem Cx.zero_re : (0 : Cx).re = 0 := rfl

@[simp] theorem Cx.zero_im : (0 : Cx).im = 0 := rfl

@[simp] theorem Cx.one_re : (1 : Cx).re = 1 := rfl

@[simp] theorem Cx.one_im : (1 : Cx).im = 0 := rfl

instance : CommRing Cx where
  add_assoc a b c := by ext <;> simp <;> ring
  zero_add a := by ext <;> simp
  add_zero a := by ext <;> simp
  add_comm a b := by ext <;> simp <;> ring
  left_distrib a b c := by ext <;> simp <;> ring
  right_distrib a b c := by ext <;> simp <;> ring
  zero_mul a := by ext <;> simp
  mul_zero a := by ext <;> simp
  mul_assoc a b c := by ext <;> simp <;> ring
  one_mul a := by ext <;> simp
  mul_one a := by ext <;> simp
  mul_comm a b := by ext <;> simp <;> ring
  neg_add_cancel a := by ext <;> simp
  nsmul := nsmulRec
  zsmul := zsmulRec

/-! ## `postprocess/statistics.py` -/

/-- The run-time errors the Python code can raise on the modelled paths. -/
inductive PyError where
  /-- A reference to an unbound name (Python `NameError`). -/
  | nameError : PyError
  /-- An integer modulus/division by zero (Python `ZeroDivisionError`). -/
  | zeroDivisionError : PyError
  /-- The `InvalidArgument` error named by the specification's error taxonomy. -/
  | invalidArgument : PyError
deriving DecidableEq

/-- Model of `bin(X, binsize)` from `statistics.py`.  The source is
```
if binsize == 1:
    return X
else:
    extra = 0 if pl.size(X, axis = 0) % binsize == 0 else 1
    dims = [i for i in pl.shape(Ws)]
    ...
```
For `binsize == 1` it returns `X` unchanged.  For any other `binsize` the
`else` branch is entered: the expression `pl.size(X, axis = 0) % binsize`
raises `ZeroDivisionError` when `binsize == 0`, and otherwise the very next
line reads the unbound name `Ws` (a slip for `X`) and raises `NameError`, so
the rest of the branch (the binning loop) is unreachable dead code. -/
def bin (X : List ℚ) (binsize : ℤ) : Except PyError (List ℚ) :=
  if binsize = 1 then Except.ok X
  else if binsize = 0 then Except.error PyError.zeroDivisionError
  else Except.error PyError.nameError

/-! ## `auto_correlation` from `measurements.py` -/

/-- Model of `pl.mean` on a one-dimensional array: sum divided by length
(on the empty list this is `0/0 = 0` in `ℚ`; numpy returns `nan`, and the
only place the code takes the mean of a possibly-empty array is the unused
`mean_plaquette` of an empty `auto_correlation` input). -/
def mean (xs : List ℚ) : ℚ := xs.sum / (xs.length : ℚ)

/-- Population variance: the mean of the squared deviations from the mean. -/
def variance (xs : List ℚ) : ℚ :=
  mean (xs.map (fun x => (x - mean xs) ^ 2))

/-- Model of `auto_correlation(plaquettes)` from `measurements.py`:
`num_configs = N / 2` (Python 2 floor division), and for each
`t < num_configs` the entry is
`pl.mean((S - μ) * (pl.roll(S, -t) - μ))`, where
`pl.roll(S, -t)[i] = S[(i + t) mod N]`.  The code contains no `raise` and no
shape check, so the function is total; on an empty input the loop body never
runs and the empty array is returned. -/
def auto_correlation (S : List ℚ) : List ℚ :=
  let μ := mean S
  let N := S.length
  (List.range (N / 2)).map (fun t =>
    mean ((List.range N).map (fun i =>
      (S.getD i 0 - μ) * (S.getD ((i + t) % N) 0 - μ))))

/-! ## The least-squares fitters from `measurements.py`

`scipy.optimize.leastsq` is an external collaborator (spec section 6:
`solve(residualFn, initialGuess, extraArgs) -> (parameters, statusCode)`),
modelled as an explicit parameter of type `Solver`.  A residual function maps
the current parameter vector and the two extra arguments (the abscissae and
the data) to a vector of residuals, exactly like the Python lambdas that are
passed to `optimize.leastsq`. -/

/-- The type of the residual lambdas handed to `optimize.leastsq`:
parameters, abscissae, data to residuals. -/
def Residual : Type := List ℚ → List ℚ → List ℚ → List ℚ

/-- The external least-squares solver:
`solve (residual, initialGuess, xs, ys) = (parameters, statusCode)`. -/
def Solver : Type := Residual → List ℚ → List ℚ → List ℚ → List ℚ × ℤ

/-- Model of `pl.arange(1, n + 1)` as rationals: the list `[1, 2, ..., n]`. -/
def range1 (n : ℕ) : List ℚ := (List.range n).map (fun k => ((k : ℕ) : ℚ) + 1)

/-- Model of `pair_potential(b, r) = b[0] * r + b[1] / r + b[2]` from `measurements.py`. -/
def pair_potential (b : List ℚ) (r : ℚ) : ℚ :=
  b.getD 0 0 * r + b.getD 1 0 / r + b.getD 2 0

/-- The residual lambda of `potential_params`:
`err_func = lambda b, r, y: y - pair_potential(b, r)` (vectorized over the
common indices of `r` and `y`). -/
def err_func : Residual := fun b r y =>
  List.zipWith (fun ri yi => yi - pair_potential b ri) r y

/-- Model of `potential_params(data)` on one-dimensional input: fit `pair_potential`
with initial guess `[1, 1, 1]` at abscissae `r = arange(1, len(data) + 1)`;
if the solver status is outside `[1, 2, 3, 4]` a warning is printed
(modelled by the `Bool` component) and the parameters are returned anyway. -/
def potential_params_single (solve : Solver) (data : List ℚ) : List ℚ × Bool :=
  let r := range1 data.length
  let p := solve err_func [1, 1, 1] r data
  (p.1, decide (([1, 2, 3, 4] : List ℤ).count p.2 < 1))

/-- Model of `potential_params(data)` on two-dimensional input: one `pair_potential`
fit per row (the per-row warnings go to stdout and are dropped here). -/
def potential_params_batch (solve : Solver) (data : List (List ℚ)) :
    List (List ℚ) :=
  data.map (fun row => (potential_params_single solve row).1)

/-- The residual lambda of `calculate_potential`:
`f = lambda b, t, W: W - b[0] * pl.exp(-b[1] * t)`, with the external real
exponential passed in as `exp`. -/
def decay_f (exp : ℚ → ℚ) : Residual := fun b t W =>
  List.zipWith (fun ti Wi => Wi - b.getD 0 0 * exp (-b.getD 1 0 * ti)) t W

/-- Model of `pl.size(A, axis = 1)` of a rectangular two-dimensional array modelled as
a list of rows: the length of the first row. -/
def size_axis1 (wl : List (List ℚ)) : ℕ := (wl.getD 0 []).length

/-- Model of `calculate_potential(wilson_loops)` on two-dimensional input
(separations on axis 0, lattice times on axis 1): for each row, fit
`b[0] * exp(-b[1] * t)` at `t = arange(1, size(wl, axis=1) + 1)` with initial
guess `[1, 1]` and keep `params[1]` as the effective potential.  No solver
status check is performed in this routine. -/
def calculate_potential_single (solve : Solver) (exp : ℚ → ℚ)
    (wl : List (List ℚ)) : List ℚ :=
  let t := range1 (size_axis1 wl)
  wl.map (fun row => ((solve (decay_f exp) [1, 1] t row).1).getD 1 0)

/-- Model of `calculate_potential` on three-dimensional input: recurse per batch
member. -/
def calculate_potential_batch (solve : Solver) (exp : ℚ → ℚ)
    (wl : List (List (List ℚ))) : List (List ℚ) :=
  wl.map (calculate_potential_single solve exp)

/-- The Sommer-scale relation, written exactly as the specification words it:
`a = 0.5 / sqrt((1.65 + b1) / b0)` applied to a fitted parameter vector,
with the external real square root passed in as `sqrt`. -/
def sommer_relation (sqrt : ℚ → ℚ) (b : List ℚ) : ℚ :=
  0.5 / sqrt ((1.65 + b.getD 1 0) / b.getD 0 0)

/-- Model of `calculate_spacing(wilson_loops)` on a single (two-dimensional) set of
Wilson loops: `fit_params` is one-dimensional, so the code takes the
`else` branch `0.5 / pl.sqrt((1.65 + fit_params[1]) / fit_params[0])`. -/
def calculate_spacing_single (solve : Solver) (exp sqrt : ℚ → ℚ)
    (wl : List (List ℚ)) : ℚ :=
  let potentials := calculate_potential_single solve exp wl
  let fit_params := (potential_params_single solve potentials).1
  0.5 / sqrt ((1.65 + fit_params.getD 1 0) / fit_params.getD 0 0)

/-- Model of `calculate_spacing(wilson_loops)` on batched (three-dimensional) input:
`fit_params` is two-dimensional, so the code takes the branch
`0.5 / pl.sqrt((1.65 + fit_params[:,1]) / fit_params[:,0])`, applying the
relation row by row. -/
def calculate_spacing_batch (solve : Solver) (exp sqrt : ℚ → ℚ)
    (wl : List (List (List ℚ))) : List ℚ :=
  let potentials := calculate_potential_batch solve exp wl
  let fit_params := potential_params_batch solve potentials
  fit_params.map (fun b => 0.5 / sqrt ((1.65 + b.getD 1 0) / b.getD 0 0))

/-! ## `compute_correlator` and `meson_spec` from `measurements.py` -/

/-- A spin-space matrix (`gamma5`, or one of the 16 interpolators). -/
abbrev Mat4 : Type := Fin 4 → Fin 4 → Cx

/-- Model of `pl.dot` of two spin-space matrices. -/
def matDot (A B : Mat4) : Mat4 := fun i j => ∑ k, A i k * B k j

/-- A propagator: a complex tensor indexed by the flat lattice-site axis and
by two spin and two colour indices.  The site axis is modelled as a total
function on `ℕ`; shapes are tracked separately (`compute_correlator_arr`). -/
abbrev Propagator : Type := ℕ → Fin 4 → Fin 4 → Fin 3 → Fin 3 → Cx

/-- First staged contraction of `compute_correlator`:
`product1 = swapaxes(tensordot(Gamma2, conj(prop1), (1,1)), 0, 1)`, i.e.
`product1[x,i,l,a,b] = Σ_j Gamma2[i,j] * conj(prop1[x,j,l,a,b])`. -/
def product1 (Gamma2 : Mat4) (prop1 : Propagator) :
    ℕ → Fin 4 → Fin 4 → Fin 3 → Fin 3 → Cx :=
  fun x i l a b => ∑ j, Gamma2 i j * Cx.conj (prop1 x j l a b)

/-- Second staged contraction of `compute_correlator`:
`product2 = swapaxes(swapaxes(tensordot(Gamma3, prop2, (1,2)), 0, 1), 1, 2)`,
i.e. `product2[x,k,i,a,b] = Σ_j Gamma3[i,j] * prop2[x,k,j,a,b]`. -/
def product2 (Gamma3 : Mat4) (prop2 : Propagator) :
    ℕ → Fin 4 → Fin 4 → Fin 3 → Fin 3 → Cx :=
  fun x k i a b => ∑ j, Gamma3 i j * prop2 x k j a b

/-- Model of `compute_correlator(prop1, prop2, Gamma)` from `measurements.py`, per
lattice site `x`: with `Gamma2 = dot(Gamma, gamma5)` and
`Gamma3 = dot(gamma5, Gamma)`, the staged computation
`einsum('xijab,xijab->x', product1, product2).real`.  The constant
`const.gamma5` lives in `pyQCD.interfaces.constants`, outside this
repository's sources, so it is passed as the explicit parameter `gamma5`;
no result below depends on its entries. -/
def compute_correlator (prop1 prop2 : Propagator) (Gamma gamma5 : Mat4)
    (x : ℕ) : ℚ :=
  let Gamma2 := matDot Gamma gamma5
  let Gamma3 := matDot gamma5 Gamma
  (∑ i, ∑ j, ∑ a, ∑ b,
    product1 Gamma2 prop1 x i j a b * product2 Gamma3 prop2 x i j a b).re

/-- The single four-index tensor contraction that the specification (and the
comment in the source) gives as the meaning of `compute_correlator`:
`einsum('ij,xjlab,lm,ximab->x', Gamma2, conj(prop1), Gamma3, prop2)`
with `Gamma2 = dot(Gamma, gamma5)` and `Gamma3 = dot(gamma5, Gamma)`. -/
def correlator_einsum (prop1 prop2 : Propagator) (Gamma gamma5 : Mat4)
    (x : ℕ) : Cx :=
  ∑ i, ∑ j, ∑ l, ∑ m, ∑ a, ∑ b,
    matDot Gamma gamma5 i j * Cx.conj (prop1 x j l a b)
      * matDot gamma5 Gamma l m * prop2 x i m a b

/-- The full array returned by `compute_correlator` when the propagators have
`n` lattice sites on their flat leading axis: one real value per site. -/
def compute_correlator_arr (n : ℕ) (prop1 prop2 : Propagator)
    (Gamma gamma5 : Mat4) : List ℚ :=
  (List.range n).map (compute_correlator prop1 prop2 Gamma gamma5)

/-- The four entries of `lattice_shape`: time extent first, then the three
spatial extents. -/
structure LatShape where
  T : ℕ
  X : ℕ
  Y : ℕ
  Z : ℕ

/-- Model of `sites = list(itertools.product(xrange(X), xrange(Y), xrange(Z)))`:
all spatial sites, rightmost coordinate fastest. -/
def sites (s : LatShape) : List (ℕ × ℕ × ℕ) :=
  (List.range s.X).flatMap (fun x =>
    (List.range s.Y).flatMap (fun y =>
      (List.range s.Z).map (fun z => (x, y, z))))

/-- The momentum phase of one site in units of `π`:
`einsum('ij,j,j', sites, momentum, momentum_prefactors)` at row `site`, with
`momentum_prefactors = [2 * pi / N for N in lattice_shape[1:]]` — so the
argument of `pl.exp(1j * ...)` is `π` times this rational number. -/
def phase_turns (s : LatShape) (momentum : ℚ × ℚ × ℚ)
    (site : ℕ × ℕ × ℕ) : ℚ :=
  (site.1 : ℚ) * momentum.1 * (2 / (s.X : ℚ))
    + (site.2.1 : ℚ) * momentum.2.1 * (2 / (s.Y : ℚ))
    + (site.2.2 : ℚ) * momentum.2.2 * (2 / (s.Z : ℚ))

/-- Model of `meson_spec(prop_file1, prop_file2, lattice_shape, momentum)` from
`measurements.py`.  The two propagator files are modelled as a key list
(`prop_file1.keys()`, with the matching keys assumed present in both files)
together with the two loader maps `load1`/`load2` standing for the external
`io.load_propagator`.  `Gammas` is the flattening
`[G for Gs in const.Gammas.itervalues() for G in Gs]` of the external
constants module (the spec fixes its length at 16), and `cisPi q` models the
external `pl.exp(1j * π * q)`.  For each pair the code stores the time index
in column 0 and, for each interpolator, the momentum-projected correlator
`einsum('ij,j', reshape(correlator, (T, numSites)), exponentials).real`
in the following column; a row of the result is therefore the time index
consed onto the 16 projected values. -/
def meson_spec (K : Type) (keys : List K) (load1 load2 : K → Propagator)
    (shape : LatShape) (momentum : ℚ × ℚ × ℚ) (Gammas : List Mat4)
    (gamma5 : Mat4) (cisPi : ℚ → Cx) : List (List (List ℚ)) :=
  let sts := sites shape
  let numSites := sts.length
  keys.map (fun key =>
    let prop1 := load1 key
    let prop2 := load2 key
    (List.range shape.T).map (fun t =>
      ((t : ℕ) : ℚ) :: Gammas.map (fun Gamma =>
        (∑ s ∈ Finset.range numSites,
          Cx.mk (compute_correlator prop1 prop2 Gamma gamma5 (t * numSites + s)) 0
            * cisPi (phase_turns shape momentum (sts.getD s (0, 0, 0)))).re)))

/-! ## Helper lemmas -/

theorem list_range_map_sum (n : ℕ) (f : ℕ → ℚ) :
    ((List.range n).map f).sum = ∑ i ∈ Finset.range n, f i := by
  induction n with
  | zero => simp
  | succ n ih =>
    rw [List.range_succ, List.map_append, List.sum_append, Finset.sum_range_succ, ih]
    simp

theorem getD_map_range (n k : ℕ) (f : ℕ → ℚ) (hk : k < n) :
    ((List.range n).map f).getD k 0 = f k := by
  rw [List.getD_eq_getElem?_getD]
  simp [List.getElem?_map, List.getElem?_range, hk]

theorem map_sum_eq_range_sum (S : List ℚ) (f : ℚ → ℚ) :
    (S.map f).sum = ∑ i ∈ Finset.range S.length, f (S.getD i 0) := by
  induction S with
  | nil => simp
  | cons a S ih =>
    rw [List.map_cons, List.sum_cons, ih, List.length_cons, Finset.sum_range_succ']
    simp [add_comm]

theorem sum_mod_shift (N t : ℕ) (f : ℕ → ℚ) :
    ∑ i ∈ Finset.range N, f ((i + t) % N) = ∑ i ∈ Finset.range N, f i := by
  rcases Nat.eq_zero_or_pos N with hN | hN
  · subst hN; simp
  refine Finset.sum_nbij' (fun a => (a + t) % N) (fun a => (a + (N - t % N)) % N)
    ?_ ?_ ?_ ?_ ?_
  · intro a _; exact Finset.mem_range.mpr (Nat.mod_lt _ hN)
  · intro a _; exact Finset.mem_range.mpr (Nat.mod_lt _ hN)
  · intro a ha
    rw [Finset.mem_range] at ha
    dsimp only
    rw [Nat.mod_add_mod]
    have h1 : t % N ≤ t := Nat.mod_le t N
    have h2 : t % N < N := Nat.mod_lt t hN
    have h3 := Nat.div_add_mod t N
    have h4 : a + t + (N - t % N) = a + N * (t / N) + N := by omega
    rw [h4, Nat.add_mod_right, Nat.add_mul_mod_self_left, Nat.mod_eq_of_lt ha]
  · intro a ha
    rw [Finset.mem_range] at ha
    dsimp only
    rw [Nat.mod_add_mod]
    have h1 : t % N ≤ t := Nat.mod_le t N
    have h2 : t % N < N := Nat.mod_lt t hN
    have h3 := Nat.div_add_mod t N
    have h4 : a + (N - t % N) + t = a + N * (t / N) + N := by omega
    rw [h4, Nat.add_mod_right, Nat.add_mul_mod_self_left, Nat.mod_eq_of_lt ha]
  · intro a _; rfl

theorem sum_lag_reverse (N t : ℕ) (ht : t ≤ N) (g : ℕ → ℚ) :
    ∑ i ∈ Finset.range N, g i * g ((i + t) % N)
      = ∑ i ∈ Finset.range N, g i * g ((i + (N - t)) % N) := by
  rcases Nat.eq_zero_or_pos N with hN | hN
  · subst hN; simp
  have key := sum_mod_shift N t (fun j => g (j % N) * g ((j + (N - t)) % N))
  calc ∑ i ∈ Finset.range N, g i * g ((i + t) % N)
      = ∑ i ∈ Finset.range N,
          (fun j => g (j % N) * g ((j + (N - t)) % N)) ((i + t) % N) := by
        refine Finset.sum_congr rfl ?_
        intro i hi
        rw [Finset.mem_range] at hi
        have hmm : (i + t) % N % N = (i + t) % N := Nat.mod_mod_of_dvd _ dvd_rfl
        have hback : ((i + t) % N + (N - t)) % N = i := by
          rw [Nat.mod_add_mod]
          have h4 : i + t + (N - t) = i + N := by omega
          rw [h4, Nat.add_mod_right, Nat.mod_eq_of_lt hi]
        simp only [hmm, hback]
        ring
    _ = ∑ i ∈ Finset.range N,
          (fun j => g (j % N) * g ((j + (N - t)) % N)) i := key
    _ = ∑ i ∈ Finset.range N, g i * g ((i + (N - t)) % N) := by
        refine Finset.sum_congr rfl ?_
        intro i hi
        rw [Finset.mem_range] at hi
        simp only [Nat.mod_eq_of_lt hi]

/-! ## Claim theorems -/

/-- C1: the claim says that for every `binSize ≥ 1` dividing the length the
result has length `len(S)/binSize` with block means as entries; but for any
`binSize ≠ 1` the code reads the unbound name `Ws` and raises `NameError`
instead of returning the binned series — here evaluated at the failing input
`S = [1, 2, 3, 4]`, `binSize = 2` (where the claim would demand
`[3/2, 7/2]`). -/
theorem bin_raises_for_binsize_two :
    bin [1, 2, 3, 4] 2 = Except.error PyError.nameError := rfl

/-- C8 counterexample: at `S = [1, 2]`, `binSize = 0` the code fails with
`ZeroDivisionError` (from `len(S) % 0`), not with the `InvalidArgument`
error the claim announces. -/
theorem bin_zero_error_is_not_invalid_argument :
    bin [1, 2] 0 = Except.error PyError.zeroDivisionError
      ∧ bin [1, 2] 0 ≠ Except.error PyError.invalidArgument := by
  refine ⟨rfl, ?_⟩
  intro h
  simp [bin] at h

/-- C8 (amended): for every `binSize < 1` the call does fail rather than
return a value, but with `ZeroDivisionError` when `binSize = 0` (the modulus
in the `extra` computation) and with `NameError` when `binSize < 0` (the
unbound name `Ws`), never with `InvalidArgument`: the code performs no
argument validation at all. -/
theorem bin_small_binsize_fails (S : List ℚ) (bs : ℤ) (h : bs < 1) :
    bin S bs = Except.error
      (if bs = 0 then PyError.zeroDivisionError else PyError.nameError) := by
  have h1 : ¬bs = 1 := by omega
  unfold bin
  rw [if_neg h1]
  split <;> simp_all

/-- Witness for C8's amended theorem at `S = [1, 2]`, `binSize = -3`. -/
theorem bin_small_binsize_fails_witness :
    bin [1, 2] (-3) = Except.error PyError.nameError := by
  have h := bin_small_binsize_fails [1, 2] (-3) (by decide)
  have h0 : ¬((-3 : ℤ) = 0) := by decide
  rwa [if_neg h0] at h

/-- C9 counterexample: on the empty series `auto_correlation` does not raise
`InvalidArgument` (the code contains no `raise` and no shape check); the
`num_configs = 0` loop never runs and the empty array is returned. -/
theorem auto_correlation_empty_returns_empty :
    auto_correlation [] = [] := rfl

/-- C9 (amended): `auto_correlation` succeeds on every input, including the
empty series, always returning `floor(N/2)` values; there is no failure
mode at all (the `InvalidArgument` on empty input announced by the claim
does not exist in the code). -/
theorem auto_correlation_total (S : List ℚ) :
    (auto_correlation S).length = S.length / 2 := by
  simp [auto_correlation]

theorem mean_congr (xs ys : List ℚ) (hs : xs.sum = ys.sum)
    (hl : xs.length = ys.length) : mean xs = mean ys := by
  unfold mean
  rw [hs, hl]

/-- C2: for a non-empty series of length `N`, `auto_correlation` returns
`floor(N/2)` values; the value at lag `t` equals the mean over all `i` of
`(S[i] − μ) · (S[(i − t) mod N] − μ)` — written with the non-negative
representative `(i + (N − t)) mod N` of `(i − t) mod N` — because the code's
`pl.roll(S, -t)` form `(S[i] − μ) · (S[(i + t) mod N] − μ)` has the same
circular sum; and the value at lag `0` is the population variance. -/
theorem auto_correlation_spec (S : List ℚ) (t : ℕ) (hS : S ≠ [])
    (ht : t < S.length / 2) :
    (auto_correlation S).length = S.length / 2
    ∧ (auto_correlation S).getD t 0
        = mean ((List.range S.length).map (fun i =>
            (S.getD i 0 - mean S)
              * (S.getD ((i + (S.length - t)) % S.length) 0 - mean S)))
    ∧ (auto_correlation S).getD 0 0 = variance S := by
  have hN : 0 < S.length := List.length_pos.mpr hS
  have hunfold : auto_correlation S = (List.range (S.length / 2)).map (fun t =>
      mean ((List.range S.length).map (fun i =>
        (S.getD i 0 - mean S) * (S.getD ((i + t) % S.length) 0 - mean S)))) := rfl
  refine ⟨by simp [auto_correlation], ?_, ?_⟩
  · rw [hunfold, getD_map_range _ _ _ ht]
    apply mean_congr
    · rw [list_range_map_sum, list_range_map_sum]
      exact sum_lag_reverse S.length t (by omega) (fun j => S.getD j 0 - mean S)
    · simp
  · rcases Nat.lt_or_ge S.length 2 with h2 | h2
    · have hN1 : S.length = 1 := by omega
      obtain ⟨a, rfl⟩ := List.length_eq_one.mp hN1
      have he : auto_correlation [a] = [] := by
        simp [auto_correlation]
      rw [he]
      simp [variance, mean]
    · have h0 : 0 < S.length / 2 := by omega
      rw [hunfold, getD_map_range _ _ _ h0]
      unfold variance
      apply mean_congr
      · rw [list_range_map_sum, map_sum_eq_range_sum]
        refine Finset.sum_congr rfl ?_
        intro i hi
        rw [Finset.mem_range] at hi
        rw [Nat.add_zero, Nat.mod_eq_of_lt hi]
        ring
      · simp

/-- Witness for C2 at `S = [1, 2, 3, 4]`, lag `t = 1`. -/
theorem auto_correlation_spec_witness :
    (([1, 2, 3, 4] : List ℚ) ≠ [] ∧ 1 < ([1, 2, 3, 4] : List ℚ).length / 2)
    ∧ ((auto_correlation [1, 2, 3, 4]).length = ([1, 2, 3, 4] : List ℚ).length / 2
      ∧ (auto_correlation [1, 2, 3, 4]).getD 1 0
          = mean ((List.range ([1, 2, 3, 4] : List ℚ).length).map (fun i =>
              (([1, 2, 3, 4] : List ℚ).getD i 0 - mean [1, 2, 3, 4])
                * (([1, 2, 3, 4] : List ℚ).getD
                    ((i + (([1, 2, 3, 4] : List ℚ).length - 1))
                      % ([1, 2, 3, 4] : List ℚ).length) 0
                  - mean [1, 2, 3, 4])))
      ∧ (auto_correlation [1, 2, 3, 4]).getD 0 0 = variance [1, 2, 3, 4]) :=
  ⟨⟨by simp, by decide⟩, auto_correlation_spec [1, 2, 3, 4] 1 (by simp) (by decide)⟩

theorem getD_zipWith (f : ℚ → ℚ → ℚ) (xs ys : List ℚ) (k : ℕ)
    (h1 : k < xs.length) (h2 : k < ys.length) :
    (List.zipWith f xs ys).getD k 0 = f (xs.getD k 0) (ys.getD k 0) := by
  induction xs generalizing ys k with
  | nil => simp at h1
  | cons x xs ih =>
    cases ys with
    | nil => simp at h2
    | cons y ys =>
      cases k with
      | zero => simp
      | succ k =>
        simp only [List.zipWith_cons_cons, List.getD_cons_succ]
        exact ih ys k (by simpa using h1) (by simpa using h2)

/-- C7: when the solver status lies outside the success set `{1, 2, 3, 4}`,
`potential_params` prints the warning (`Bool` component `true`) and still
returns the parameters the solver handed back; under the external solver's
contract (parameters have the shape of the initial guess, spec section 6)
that is a 3-element vector.  The code path contains no `raise`, so the soft
failure never becomes an exception. -/
theorem potential_params_soft_failure (solve : Solver) (data : List ℚ)
    (hlen : ∀ f b0 xs ys, ((solve f b0 xs ys).1).length = b0.length)
    (hfail : ([1, 2, 3, 4] : List ℤ).count
        (solve err_func [1, 1, 1] (range1 data.length) data).2 < 1) :
    potential_params_single solve data
      = ((solve err_func [1, 1, 1] (range1 data.length) data).1, true)
    ∧ ((potential_params_single solve data).1).length = 3 := by
  have hval : potential_params_single solve data
      = ((solve err_func [1, 1, 1] (range1 data.length) data).1,
         decide (([1, 2, 3, 4] : List ℤ).count
           (solve err_func [1, 1, 1] (range1 data.length) data).2 < 1)) := rfl
  constructor
  · rw [hval, decide_eq_true hfail]
  · rw [hval]
    simpa using hlen err_func [1, 1, 1] (range1 data.length) data

/-- Witness for C7: a solver that returns its initial guess with each entry
increased by one and the non-success status `7`, on the data `[10, 20]`. -/
theorem potential_params_soft_failure_witness :
    potential_params_single
        (fun _ b0 _ _ => (b0.map (fun q => q + 1), (7 : ℤ))) [10, 20]
      = (List.map (fun q => q + 1) [1, 1, 1], true)
    ∧ ((potential_params_single
        (fun _ b0 _ _ => (b0.map (fun q => q + 1), (7 : ℤ))) [10, 20]).1).length
      = 3 :=
  potential_params_soft_failure
    (fun _ b0 _ _ => (b0.map (fun q => q + 1), (7 : ℤ)))
    [10, 20] (fun _ b0 _ _ => by simp) (by decide)

/-- C10: the exponential-decay fitter uses the abscissae
`t = arange(1, T + 1)` — so the value at 0-based time index `k` is fitted as
the model value at time `t = k + 1` — its residual at index `k` is
`W[k] - b[0] * exp(-b[1] * (k + 1))`, and the second fitted parameter
`params[1]` is returned as the effective potential of each separation. -/
theorem calculate_potential_time_convention (solve : Solver) (exp : ℚ → ℚ)
    (wl : List (List ℚ)) (b row : List ℚ) (k : ℕ)
    (hk : k < size_axis1 wl) (hk2 : k < row.length) :
    (range1 (size_axis1 wl)).getD k 0 = (k : ℚ) + 1
    ∧ (decay_f exp b (range1 (size_axis1 wl)) row).getD k 0
        = row.getD k 0 - b.getD 0 0 * exp (-b.getD 1 0 * ((k : ℚ) + 1))
    ∧ calculate_potential_single solve exp wl
        = wl.map (fun r =>
            ((solve (decay_f exp) [1, 1] (range1 (size_axis1 wl)) r).1).getD 1 0) := by
  have h1 : (range1 (size_axis1 wl)).getD k 0 = (k : ℚ) + 1 := by
    unfold range1
    rw [getD_map_range _ _ _ hk]
  refine ⟨h1, ?_, rfl⟩
  unfold decay_f
  rw [getD_zipWith _ _ _ _ (by simpa [range1] using hk) hk2, h1]

/-- Witness for C10 at `wl = [[5, 6], [7, 8]]`, `b = [2, 3]`,
`row = [10, 20]`, `k = 1`, with a solver returning its guess with status 1
and `exp` taken as squaring. -/
theorem calculate_potential_time_convention_witness :
    (range1 (size_axis1 [[5, 6], [7, 8]])).getD 1 0 = (1 : ℚ) + 1
    ∧ (decay_f (fun q => q * q) [2, 3]
          (range1 (size_axis1 [[5, 6], [7, 8]])) [10, 20]).getD 1 0
        = ([10, 20] : List ℚ).getD 1 0
          - ([2, 3] : List ℚ).getD 0 0
            * (fun q => q * q) (-([2, 3] : List ℚ).getD 1 0 * ((1 : ℚ) + 1))
    ∧ calculate_potential_single (fun _ b0 _ _ => (b0, (1 : ℤ)))
          (fun q => q * q) [[5, 6], [7, 8]]
        = ([[5, 6], [7, 8]] : List (List ℚ)).map (fun r =>
            (((fun (_ : Residual) (b0 : List ℚ) (_ _ : List ℚ) => (b0, (1 : ℤ)))
                (decay_f (fun q => q * q)) [1, 1]
                (range1 (size_axis1 [[5, 6], [7, 8]])) r).1).getD 1 0) :=
  calculate_potential_time_convention (fun _ b0 _ _ => (b0, (1 : ℤ)))
    (fun q => q * q) [[5, 6], [7, 8]] [2, 3] [10, 20] 1 (by decide) (by decide)

/-- C6: the lattice-spacing calculator is the composition of the
exponential-decay fitter and the pair-potential fitter followed by the
Sommer relation `a = 0.5 / sqrt((1.65 + b1) / b0)` on the fitted parameters
(`b1` the second, `b0` the first coefficient); on batched input the relation
is applied to each batch member's parameter row, which agrees with the
single-input computation applied member by member. -/
theorem calculate_spacing_composition (solve : Solver) (exp sqrt : ℚ → ℚ)
    (wl2 : List (List ℚ)) (wl3 : List (List (List ℚ))) :
    calculate_spacing_single solve exp sqrt wl2
      = sommer_relation sqrt
          (potential_params_single solve
            (calculate_potential_single solve exp wl2)).1
    ∧ calculate_spacing_batch solve exp sqrt wl3
        = wl3.map (calculate_spacing_single solve exp sqrt) := by
  refine ⟨rfl, ?_⟩
  simp [calculate_spacing_batch, potential_params_batch, calculate_potential_batch,
    calculate_spacing_single, List.map_map, Function.comp]

theorem sum_swap_last3 {M : Type} [AddCommMonoid M] {A B C : Type}
    [Fintype A] [Fintype B] [Fintype C] (f : A → B → C → M) :
    (∑ x, ∑ y, ∑ z, f x y z) = ∑ x, ∑ z, ∑ y, f x y z :=
  Finset.sum_congr rfl fun _ _ => Finset.sum_comm

theorem sum_swap_last4 {M : Type} [AddCommMonoid M] {A B C D : Type}
    [Fintype A] [Fintype B] [Fintype C] [Fintype D] (f : A → B → C → D → M) :
    (∑ w, ∑ x, ∑ y, ∑ z, f w x y z) = ∑ w, ∑ x, ∑ z, ∑ y, f w x y z :=
  Finset.sum_congr rfl fun w _ => sum_swap_last3 (f w)

theorem sum_swap_last5 {M : Type} [AddCommMonoid M] {A B C D E : Type}
    [Fintype A] [Fintype B] [Fintype C] [Fintype D] [Fintype E]
    (f : A → B → C → D → E → M) :
    (∑ v, ∑ w, ∑ x, ∑ y, ∑ z, f v w x y z)
      = ∑ v, ∑ w, ∑ x, ∑ z, ∑ y, f v w x y z :=
  Finset.sum_congr rfl fun v _ => sum_swap_last4 (f v)

theorem sum_swap_last6 {M : Type} [AddCommMonoid M] {A B C D E F : Type}
    [Fintype A] [Fintype B] [Fintype C] [Fintype D] [Fintype E] [Fintype F]
    (f : A → B → C → D → E → F → M) :
    (∑ u, ∑ v, ∑ w, ∑ x, ∑ y, ∑ z, f u v w x y z)
      = ∑ u, ∑ v, ∑ w, ∑ x, ∑ z, ∑ y, f u v w x y z :=
  Finset.sum_congr rfl fun u _ => sum_swap_last5 (f u)

theorem staged_eq_einsum_cx (G2 G3 : Mat4)
    (q1 q2 : Fin 4 → Fin 4 → Fin 3 → Fin 3 → Cx) :
    (∑ i, ∑ j, ∑ a, ∑ b, (∑ l, G2 i l * q1 l j a b) * (∑ m, G3 j m * q2 i m a b))
      = ∑ i, ∑ j, ∑ l, ∑ m, ∑ a, ∑ b,
          G2 i j * q1 j l a b * G3 l m * q2 i m a b := by
  simp only [Finset.sum_mul_sum]
  conv_lhs => rw [sum_swap_last5]
  conv_lhs => rw [sum_swap_last4]
  conv_lhs => rw [sum_swap_last6]
  conv_lhs => rw [sum_swap_last5]
  conv_lhs => rw [sum_swap_last3]
  refine Finset.sum_congr rfl fun i _ => Finset.sum_congr rfl fun j _ =>
    Finset.sum_congr rfl fun l _ => Finset.sum_congr rfl fun m _ =>
    Finset.sum_congr rfl fun a _ => Finset.sum_congr rfl fun b _ => ?_
  ring

theorem correlator_pointwise (prop1 prop2 : Propagator) (Gamma gamma5 : Mat4)
    (x : ℕ) :
    compute_correlator prop1 prop2 Gamma gamma5 x
      = (correlator_einsum prop1 prop2 Gamma gamma5 x).re := by
  have h1 : compute_correlator prop1 prop2 Gamma gamma5 x
      = (∑ i, ∑ j, ∑ a, ∑ b,
          (∑ l, matDot Gamma gamma5 i l * Cx.conj (prop1 x l j a b))
            * (∑ m, matDot gamma5 Gamma j m * prop2 x i m a b)).re := rfl
  have h2 : correlator_einsum prop1 prop2 Gamma gamma5 x
      = ∑ i, ∑ j, ∑ l, ∑ m, ∑ a, ∑ b,
          matDot Gamma gamma5 i j * Cx.conj (prop1 x j l a b)
            * matDot gamma5 Gamma l m * prop2 x i m a b := rfl
  rw [h1, h2]
  congr 1
  exact staged_eq_einsum_cx (matDot Gamma gamma5) (matDot gamma5 Gamma)
    (fun l j a b => Cx.conj (prop1 x l j a b))
    (fun i m a b => prop2 x i m a b)

/-- C3: at every lattice site the staged computation of `compute_correlator`
(`Gamma2 = Gamma·gamma5` contracted against `conj(prop1)`, `Gamma3 =
gamma5·Gamma` contracted against `prop2`, then the elementwise
product-and-sum `einsum('xijab,xijab->x')`) equals the real part of the
single four-index contraction `einsum('ij,xjlab,lm,ximab->x', Gamma·gamma5,
conj(prop1), gamma5·Gamma, prop2)` that the specification (and the comment
in the source) states. -/
theorem compute_correlator_refines_einsum (prop1 prop2 : Propagator)
    (Gamma gamma5 : Mat4) (x : ℕ) :
    compute_correlator prop1 prop2 Gamma gamma5 x
      = (correlator_einsum prop1 prop2 Gamma gamma5 x).re :=
  correlator_pointwise prop1 prop2 Gamma gamma5 x

/-- C4 counterexample: on a lattice with 2 time slices and 2 spatial sites
(4 lattice sites in total, e.g. shape `(2, 2, 1, 1)`), `compute_correlator`
returns 4 values — one per lattice *site* — not 2 values per time slice:
the spatial summation the claim attributes to it happens only later, in
`meson_spec`'s momentum projection. -/
theorem compute_correlator_not_per_timeslice :
    (compute_correlator_arr 4 (fun _ _ _ _ _ => 1) (fun _ _ _ _ _ => 1)
        (fun _ _ => 1) (fun _ _ => 1)).length = 4
    ∧ (compute_correlator_arr 4 (fun _ _ _ _ _ => 1) (fun _ _ _ _ _ => 1)
        (fun _ _ => 1) (fun _ _ => 1)).length ≠ 2 := by
  constructor <;> simp [compute_correlator_arr]

/-- C4 (amended): `compute_correlator` returns a real-valued array with one
value per lattice *site* — the real part of the contracted two-point
function at that site; the summation over the spatial sites of each
time-slice is performed afterwards by the momentum projection of
`meson_spec`, not by `compute_correlator`. -/
theorem compute_correlator_arr_spec (n : ℕ) (prop1 prop2 : Propagator)
    (Gamma gamma5 : Mat4) (x : ℕ) (hx : x < n) :
    (compute_correlator_arr n prop1 prop2 Gamma gamma5).length = n
    ∧ (compute_correlator_arr n prop1 prop2 Gamma gamma5).getD x 0
        = (correlator_einsum prop1 prop2 Gamma gamma5 x).re := by
  refine ⟨by simp [compute_correlator_arr], ?_⟩
  unfold compute_correlator_arr
  rw [getD_map_range _ _ _ hx]
  exact correlator_pointwise prop1 prop2 Gamma gamma5 x

/-- Witness for C4's amended theorem: 4 sites, all-ones propagators and
matrices, site `x = 2`. -/
theorem compute_correlator_arr_spec_witness :
    (compute_correlator_arr 4 (fun _ _ _ _ _ => 1) (fun _ _ _ _ _ => 1)
        (fun _ _ => 1) (fun _ _ => 1)).length = 4
    ∧ (compute_correlator_arr 4 (fun _ _ _ _ _ => 1) (fun _ _ _ _ _ => 1)
        (fun _ _ => 1) (fun _ _ => 1)).getD 2 0
        = (correlator_einsum (fun _ _ _ _ _ => 1) (fun _ _ _ _ _ => 1)
            (fun _ _ => 1) (fun _ _ => 1) 2).re :=
  compute_correlator_arr_spec 4 (fun _ _ _ _ _ => 1) (fun _ _ _ _ _ => 1)
    (fun _ _ => 1) (fun _ _ => 1) 2 (by decide)

theorem getD_map_range_gen {α : Type} (d : α) (n k : ℕ) (f : ℕ → α)
    (hk : k < n) : ((List.range n).map f).getD k d = f k := by
  rw [List.getD_eq_getElem?_getD]
  simp [List.getElem?_map, List.getElem?_range, hk]

theorem getD_map_of_lt {α β : Type} (d : β) (l : List α) (g : α → β) (i : ℕ)
    (hi : i < l.length) : (l.map g).getD i d = g (l.get ⟨i, hi⟩) := by
  rw [List.getD_eq_getElem?_getD]
  simp [List.getElem?_map, List.getElem?_eq_getElem hi]

/-- C5: on propagator sets presented by their matching key list, a lattice
shape with time extent `T` and a library of 16 interpolators, `meson_spec`
returns one row block per propagator pair, each block holding `T` rows of
length `17 = 1 + 16` whose column 0 is the time index of that row — in
particular, with one pair and shape `(4, 2, 2, 2)` the result has shape
`(1, 4, 17)` with column 0 equal to `[0, 1, 2, 3]`, the instance checked by
the witness below. -/
theorem meson_spec_shape (K : Type) (keys : List K)
    (load1 load2 : K → Propagator) (shape : LatShape) (momentum : ℚ × ℚ × ℚ)
    (Gammas : List Mat4) (gamma5 : Mat4) (cisPi : ℚ → Cx) (i t : ℕ)
    (h16 : Gammas.length = 16) (hi : i < keys.length) (ht : t < shape.T) :
    (meson_spec K keys load1 load2 shape momentum Gammas gamma5 cisPi).length
        = keys.length
    ∧ ((meson_spec K keys load1 load2 shape momentum Gammas gamma5
          cisPi).getD i []).length = shape.T
    ∧ (((meson_spec K keys load1 load2 shape momentum Gammas gamma5
          cisPi).getD i []).getD t []).length = 17
    ∧ (((meson_spec K keys load1 load2 shape momentum Gammas gamma5
          cisPi).getD i []).getD t []).getD 0 0 = ((t : ℕ) : ℚ) := by
  have hunf : meson_spec K keys load1 load2 shape momentum Gammas gamma5 cisPi
      = keys.map (fun key =>
          (List.range shape.T).map (fun t =>
            ((t : ℕ) : ℚ) :: Gammas.map (fun Gamma =>
              (∑ s ∈ Finset.range (sites shape).length,
                Cx.mk (compute_correlator (load1 key) (load2 key) Gamma gamma5
                    (t * (sites shape).length + s)) 0
                  * cisPi (phase_turns shape momentum
                      ((sites shape).getD s (0, 0, 0)))).re))) := rfl
  refine ⟨by rw [hunf]; simp, ?_, ?_, ?_⟩
  · rw [hunf, getD_map_of_lt _ keys _ i hi]
    simp
  · rw [hunf, getD_map_of_lt _ keys _ i hi, getD_map_range_gen _ shape.T t _ ht]
    simp [h16]
  · rw [hunf, getD_map_of_lt _ keys _ i hi, getD_map_range_gen _ shape.T t _ ht]
    simp

/-- Witness for C5: the end-to-end scenario of the claim — one propagator
pair, lattice shape `(4, 2, 2, 2)`, momentum `(0, 0, 0)` — at row `t = 3`:
shape `(1, 4, 17)` and time index `3` in column 0. -/
theorem meson_spec_shape_witness :
    (meson_spec Unit [()] (fun _ => fun _ _ _ _ _ => 0)
        (fun _ => fun _ _ _ _ _ => 0) ⟨4, 2, 2, 2⟩ (0, 0, 0)
        (List.replicate 16 (fun _ _ => 0)) (fun _ _ => 0)
        (fun _ => 1)).length = 1
    ∧ ((meson_spec Unit [()] (fun _ => fun _ _ _ _ _ => 0)
        (fun _ => fun _ _ _ _ _ => 0) ⟨4, 2, 2, 2⟩ (0, 0, 0)
        (List.replicate 16 (fun _ _ => 0)) (fun _ _ => 0)
        (fun _ => 1)).getD 0 []).length = 4
    ∧ (((meson_spec Unit [()] (fun _ => fun _ _ _ _ _ => 0)
        (fun _ => fun _ _ _ _ _ => 0) ⟨4, 2, 2, 2⟩ (0, 0, 0)
        (List.replicate 16 (fun _ _ => 0)) (fun _ _ => 0)
        (fun _ => 1)).getD 0 []).getD 3 []).length = 17
    ∧ (((meson_spec Unit [()] (fun _ => fun _ _ _ _ _ => 0)
        (fun _ => fun _ _ _ _ _ => 0) ⟨4, 2, 2, 2⟩ (0, 0, 0)
        (List.replicate 16 (fun _ _ => 0)) (fun _ _ => 0)
        (fun _ => 1)).getD 0 []).getD 3 []).getD 0 0 = ((3 : ℕ) : ℚ) :=
  meson_spec_shape Unit [()] (fun _ => fun _ _ _ _ _ => 0)
    (fun _ => fun _ _ _ _ _ => 0) ⟨4, 2, 2, 2⟩ (0, 0, 0)
    (List.replicate 16 (fun _ _ => 0)) (fun _ _ => 0) (fun _ => 1) 0 3
    (by simp) (by simp) (by decide)
